import Mathlib

/-!
Shallow embedding of the gcsa-locate program (src/seed.h and src/main.cc)
and proofs about its seeding strategies, search pipeline and progress
instrumentation.

Strings are embedded as `List Char`; C++ `size_t` arithmetic is embedded as
`Nat` arithmetic taken modulo `2 ^ 64` where the source subtracts; code that
can throw (`std::string::substr` out-of-range, hence the seeding functions)
returns `Except Unit`.
-/

namespace GcsaLocate

/-- The modulus of C++ `size_t` arithmetic (64-bit). -/
def U64 : Nat := 2 ^ 64

/-- C++ `size_t` subtraction `a - b`: unsigned, wraps modulo `2 ^ 64`. -/
def sizeSub (a b : Nat) : Nat := (a + (U64 - b % U64)) % U64

/-- `std::string::substr(pos, len)`: throws `std::out_of_range` when
`pos > size()` (embedded as `Except.error`); otherwise returns the substring
starting at `pos` of length `min len (size - pos)`. -/
def substr (s : List Char) (pos len : Nat) : Except Unit (List Char) :=
  if pos ≤ s.length then .ok ((s.drop pos).take len) else .error ()

/-- The inner loop of the generic `seeding` (seed.h lines 58-60):
`for (unsigned int i = <i>; i < <bound>; i += step) seeds.push_back(s.substr(i, k))`.
The list of pushed seeds is returned; a thrown `out_of_range` propagates as
`Except.error`.  The C++ loop does not terminate when `step = 0`; the
embedding returns `.error` in that (never exercised) case to stay total. -/
def seedLoop (s : List Char) (k step bound i : Nat) : Except Unit (List (List Char)) :=
  if hstep : step = 0 then .error ()
  else if hlt : i < bound then
    match substr s i k with
    | .error e => .error e
    | .ok sub => (seedLoop s k step bound (i + step)).map (fun rest => sub :: rest)
  else .ok []
termination_by bound - i
decreasing_by omega

/-- The generic step-parameterized `seeding` (seed.h lines 50-62): for each
string of `string_set`, append to `seeds` every `substr(i, k)` for
`i = 0, step, 2*step, ...` while `i < length - k + 1` — the bound computed in
`size_t` arithmetic, so it wraps around when `length + 1 < k`.  Seeds are
appended to the given `seeds` vector; it is not cleared. -/
def seeding (seeds : List (List Char)) (string_set : List (List Char)) (k step : Nat) :
    Except Unit (List (List Char)) :=
  match string_set with
  | [] => .ok seeds
  | s :: rest =>
    match seedLoop s k step ((sizeSub s.length k + 1) % U64) 0 with
    | .error e => .error e
    | .ok new => seeding (seeds ++ new) rest k step

/-- The `GreedyOverlapping` tag overload of `seeding` (seed.h lines 74-83):
`seeds.clear(); seeding(seeds, string_set, k, 1);`. -/
def seedingGreedyOverlapping (seeds : List (List Char)) (string_set : List (List Char))
    (k : Nat) : Except Unit (List (List Char)) :=
  seeding [] string_set k 1

/-- The `NonOverlapping` tag overload of `seeding` (seed.h lines 95-104):
`seeds.clear(); seeding(seeds, string_set, k, k);`. -/
def seedingNonOverlapping (seeds : List (List Char)) (string_set : List (List Char))
    (k : Nat) : Except Unit (List (List Char)) :=
  seeding [] string_set k k

/-- One string's contribution in the `GreedyNonOverlapping` overload
(seed.h lines 128-133): the loop `for (i = 0; i < length - k; i += k)`
pushing `substr(i, k)`, followed by the final push of
`substr(length - k, k)` — both differences in `size_t` arithmetic. -/
def greedyPerString (s : List Char) (k : Nat) : Except Unit (List (List Char)) :=
  match seedLoop s k k (sizeSub s.length k) 0 with
  | .error e => .error e
  | .ok body =>
    match substr s (sizeSub s.length k) k with
    | .error e => .error e
    | .ok lastSeed => .ok (body ++ [lastSeed])

/-- The outer loop of the `GreedyNonOverlapping` overload over the string
set, accumulating each string's seeds in order. -/
def greedyGo (acc : List (List Char)) (string_set : List (List Char)) (k : Nat) :
    Except Unit (List (List Char)) :=
  match string_set with
  | [] => .ok acc
  | s :: rest =>
    match greedyPerString s k with
    | .error e => .error e
    | .ok new => greedyGo (acc ++ new) rest k

/-- The `GreedyNonOverlapping` tag overload of `seeding` (seed.h lines
119-135): clears `seeds`, then for each string extracts non-overlapping
k-mers, re-aligning the final seed to end at the string's last character. -/
def seedingGreedyNonOverlapping (seeds : List (List Char)) (string_set : List (List Char))
    (k : Nat) : Except Unit (List (List Char)) :=
  greedyGo [] string_set k

/-!
Embedding of the main program (src/main.cc).  The GCSA2 index is the
external collaborator of the spec: the pipeline only uses its `find`,
`count` and `locate` operations and the `gcsa::Range::empty` test, so it is
embedded as a structure of those four operations over an abstract range
type.  An occurrence (`gcsa::node_type` decoded as node and offset) is
embedded as a pair of naturals.
-/

/-- The external GCSA2 index collaborator, by its four-operation contract:
`find` a pattern giving a range, test a range for emptiness
(`gcsa::Range::empty`), `count` the matching paths of a range, and `locate`
a range giving its list of occurrences. -/
structure GCSAIndex (Range : Type) where
  find : List Char → Range
  isEmptyRange : Range → Bool
  count : Range → Nat
  locate : Range → List (Nat × Nat)

/-- The three global progress counters of main.cc lines 51-53:
`done_idx`, `total_no`, `total_occs`; all zero-initialized. -/
structure Counters where
  done_idx : Nat
  total_no : Nat
  total_occs : Nat
deriving DecidableEq

/-- The find loop of `locate_seeds` (main.cc lines 128-137): for each
pattern in order, `range = index.find(p)`; when the range is non-empty it
is pushed onto `ranges` and its `count` added to the running total;
empty ranges are skipped.  Returns the retained ranges in order and the
final running total. -/
def findLoop {Range : Type} (idx : GCSAIndex Range) :
    List (List Char) → List Range × Nat
  | [] => ([], 0)
  | p :: ps =>
    let range := idx.find p
    let rest := findLoop idx ps
    if !idx.isEmptyRange range then (range :: rest.1, idx.count range + rest.2)
    else rest

/-- The locate loop of `locate_seeds` (main.cc lines 141-149): for each
retained range, resolve its occurrences, add their number to `total_occs`
and increment `done_idx`; `total_no` is untouched.  Returns the final
counter state. -/
def locateLoop {Range : Type} (idx : GCSAIndex Range) (st : Counters) :
    List Range → Counters
  | [] => st
  | r :: rs =>
    locateLoop idx ⟨st.done_idx + 1, st.total_no, st.total_occs + (idx.locate r).length⟩ rs

/-- The counter states produced by the locate loop, one per mutating step:
each iteration first adds the resolved occurrence count to `total_occs`
(main.cc line 146) and then increments `done_idx` (line 147), so it
contributes two observable states. -/
def locateTrace {Range : Type} (idx : GCSAIndex Range) (st : Counters) :
    List Range → List Counters
  | [] => []
  | r :: rs =>
    let st1 : Counters := ⟨st.done_idx, st.total_no, st.total_occs + (idx.locate r).length⟩
    let st2 : Counters := ⟨st.done_idx + 1, st.total_no, st1.total_occs⟩
    st1 :: st2 :: locateTrace idx st2 rs

/-- The number of patterns `seeding` generates in `locate_seeds`
(main.cc line 120, starting from the empty `patterns` vector); zero when
seeding throws, since `total_no` is then never assigned. -/
def generatedSeedCount (sequences : List (List Char)) (seed_len distance : Nat) : Nat :=
  match seeding [] sequences seed_len distance with
  | .error _ => 0
  | .ok patterns => patterns.length

/-- Every counter state observable during a run of `locate_seeds`: the
globals start at zero; after seeding succeeds, `total_no` is set to the
number of generated patterns (main.cc line 122); the find loop does not
touch the counters; then the locate loop mutates `total_occs` and
`done_idx`.  When seeding throws, the run dies with the counters never
mutated. -/
def pipelineTrace {Range : Type} (idx : GCSAIndex Range) (sequences : List (List Char))
    (seed_len distance : Nat) : List Counters :=
  match seeding [] sequences seed_len distance with
  | .error _ => [⟨0, 0, 0⟩]
  | .ok patterns =>
    let afterTotal : Counters := ⟨0, patterns.length, 0⟩
    ⟨0, 0, 0⟩ :: afterTotal :: locateTrace idx afterTotal (findLoop idx patterns).1

/-- The records `locate_seeds` writes to the file named by `output_name`.
In the source the output stream is commented out (main.cc line 91) and the
`output_name` parameter is unused (line 89), so no record is ever
written. -/
def outputRecords {Range : Type} (idx : GCSAIndex Range) (sequences : List (List Char))
    (seed_len distance : Nat) : List (Nat × Nat) :=
  []

/-- Modelled from the spec: the output the `LocatingOccurrences → Done`
transition requires — "write every accumulated Occurrence as one output
record (node identifier, offset) in the order resolved" — which is missing
from the code (the write to the output file is commented out at main.cc
line 91): the occurrences of each retained range, resolved in range
order and concatenated. -/
def specOutputRecords {Range : Type} (idx : GCSAIndex Range) (sequences : List (List Char))
    (seed_len distance : Nat) : List (Nat × Nat) :=
  match seeding [] sequences seed_len distance with
  | .error _ => []
  | .ok patterns => ((findLoop idx patterns).1.map idx.locate).flatten

/-- The percent-complete computation of `signal_handler` (main.cc line 83):
`done_idx * 100 / total_no`, evaluated with no guard; C++ integer division
by zero is undefined behavior, embedded as `Except.error`. -/
def signalHandlerPercent (c : Counters) : Except Unit Nat :=
  if c.total_no = 0 then .error () else .ok (c.done_idx * 100 / c.total_no)

/-- The distance resolution of `get_option_values` (main.cc lines 220-221):
the `--distance` option defaults to 0 (main.cc line 203), and a zero
distance is replaced by the seed length. -/
def resolveDistance (distance seed_len : Nat) : Nat :=
  if distance = 0 then seed_len else distance

/-- A stub index over the trivial range type: every pattern matches a
non-empty range counting one path, and every range resolves to the single
occurrence (1, 0). -/
def stubIndex : GCSAIndex Unit where
  find := fun _ => ()
  isEmptyRange := fun _ => false
  count := fun _ => 1
  locate := fun _ => [(1, 0)]

/-! ### Helper lemmas about the seeding loop -/

lemma U64_eq : U64 = 18446744073709551616 := by norm_num [U64]

/-- When `k ≤ n` and `n` is in the faithful range, the `size_t` computation
`n - k` does not wrap. -/
lemma sizeSub_of_le {n k : Nat} (hk : k ≤ n) (hn : n < 2 ^ 32) :
    sizeSub n k = n - k := by
  unfold sizeSub
  rw [U64_eq]
  omega

/-- When `k ≤ n` and `n` is in the faithful range, the generic seeding loop
bound `n - k + 1` does not wrap. -/
lemma seedBound_of_le {n k : Nat} (hk : k ≤ n) (hn : n < 2 ^ 32) :
    (sizeSub n k + 1) % U64 = n - k + 1 := by
  unfold sizeSub
  rw [U64_eq]
  omega

/-- Characterization of the inner seeding loop when the bound is in range:
starting at `i`, it succeeds and yields the `k`-substrings at offsets
`i, i + step, i + 2 * step, ...` below `bound`. -/
lemma seedLoop_spec (s : List Char) (k step bound : Nat) (hstep : 0 < step)
    (hb : bound ≤ s.length + 1) :
    ∀ i, seedLoop s k step bound i =
      .ok ((List.range ((bound - i + step - 1) / step)).map
        fun j => (s.drop (i + j * step)).take k) := by
  suffices H : ∀ d i, bound - i = d →
      seedLoop s k step bound i =
        .ok ((List.range ((bound - i + step - 1) / step)).map
          fun j => (s.drop (i + j * step)).take k) from fun i => H (bound - i) i rfl
  intro d
  induction d using Nat.strong_induction_on with
  | _ d ih =>
    intro i hd
    rw [seedLoop, dif_neg (by omega : ¬ step = 0)]
    by_cases hib : i < bound
    · rw [dif_pos hib]
      have hi_le : i ≤ s.length := by omega
      simp only [substr, if_pos hi_le]
      have hrec := ih (bound - (i + step)) (by omega) (i + step) rfl
      rw [hrec]
      simp only [Except.map]
      have hm : (bound - i + step - 1) / step = (bound - (i + step) + step - 1) / step + 1 := by
        rcases le_or_lt (i + step) bound with h1 | h1
        · have he : bound - i + step - 1 = (bound - (i + step) + step - 1) + step := by omega
          rw [he, Nat.add_div_right _ hstep]
        · have h2 : bound - (i + step) = 0 := by omega
          rw [h2]
          have h3 : (0 + step - 1) / step = 0 := Nat.div_eq_of_lt (by omega)
          rw [h3]
          exact Nat.div_eq_of_lt_le (by omega) (by omega)
      rw [hm, List.range_succ_eq_map, List.map_cons, List.map_map]
      have hhead : i + 0 * step = i := by omega
      have htail : ∀ j, ((fun j => (s.drop (i + j * step)).take k) ∘ Nat.succ) j =
          (fun j => (s.drop (i + step + j * step)).take k) j := by
        intro j
        simp only [Function.comp, Nat.succ_mul]
        congr 2
        ring
      rw [List.map_congr_left (fun j _ => htail j)]
      simp [hhead]
    · rw [dif_neg hib]
      have hz : bound - i = 0 := by omega
      rw [hz]
      have h0 : (0 + step - 1) / step = 0 := Nat.div_eq_of_lt (by omega)
      rw [h0]
      simp

/-- The generic seeding appends to the given seed vector: running it on any
initial vector equals running it on the empty vector and prepending. -/
lemma seeding_append (seeds string_set : List (List Char)) (k step : Nat) :
    seeding seeds string_set k step =
      (seeding [] string_set k step).map (fun new => seeds ++ new) := by
  induction string_set generalizing seeds with
  | nil => simp [seeding, Except.map]
  | cons s rest ih =>
    simp only [seeding]
    cases h : seedLoop s k step ((sizeSub s.length k + 1) % U64) 0 with
    | error e => simp [Except.map]
    | ok new =>
      show seeding (seeds ++ new) rest k step =
        Except.map (fun new => seeds ++ new) (seeding ([] ++ new) rest k step)
      rw [ih (seeds ++ new), ih ([] ++ new)]
      cases seeding [] rest k step <;>
        simp [Except.map, List.append_assoc]

/-- Generic seeding of a single in-range string: the seeds are the
`k`-substrings at offsets `0, step, 2 * step, ...` up to `length - k`. -/
lemma seeding_single (s : List Char) (k step : Nat) (hstep : 0 < step)
    (hk : k ≤ s.length) (hn : s.length < 2 ^ 32) :
    seeding [] [s] k step =
      .ok ((List.range ((s.length - k + step) / step)).map
        fun j => (s.drop (j * step)).take k) := by
  simp only [seeding, seedBound_of_le hk hn,
    seedLoop_spec s k step (s.length - k + 1) hstep (by omega) 0]
  have harg : s.length - k + 1 - 0 + step - 1 = s.length - k + step := by omega
  rw [harg]
  exact congrArg Except.ok (List.map_congr_left (fun j _ => by rw [Nat.zero_add]))

/-- When the loop bound has wrapped around far beyond the string (the
underflow case `length + 1 < k`), the loop inevitably reaches an index
beyond the string's end and `substr` throws: the loop errors from any
start index not yet past `length + step`. -/
lemma seedLoop_error (s : List Char) (k step bound : Nat) (hstep : 0 < step)
    (hb : s.length + step < bound) :
    ∀ i, i ≤ s.length + step → seedLoop s k step bound i = .error () := by
  suffices H : ∀ d i, s.length + step - i = d → i ≤ s.length + step →
      seedLoop s k step bound i = .error () from fun i hi => H _ i rfl hi
  intro d
  induction d using Nat.strong_induction_on with
  | _ d ih =>
    intro i hd hi
    rw [seedLoop, dif_neg (by omega : ¬ step = 0), dif_pos (by omega : i < bound)]
    by_cases hlen : i ≤ s.length
    · simp only [substr, if_pos hlen]
      rw [ih (s.length + step - (i + step)) (by omega) (i + step) rfl (by omega)]
      rfl
    · simp only [substr, if_neg hlen]

/-- A thrown exception in the first string's inner loop propagates out of
the generic seeding. -/
lemma seeding_error_head (s : List Char) (rest seeds : List (List Char)) (k step : Nat)
    (h : seedLoop s k step ((sizeSub s.length k + 1) % U64) 0 = .error ()) :
    seeding seeds (s :: rest) k step = .error () := by
  simp only [seeding, h]

/-- A thrown exception in the inner loop propagates out of
`greedyPerString`. -/
lemma greedyPerString_error (s : List Char) (k : Nat)
    (h : seedLoop s k k (sizeSub s.length k) 0 = .error ()) :
    greedyPerString s k = .error () := by
  simp only [greedyPerString, h]

/-- A thrown exception on the first string propagates out of the greedy
non-overlapping seeding. -/
lemma greedyGo_error_head (s : List Char) (rest acc : List (List Char)) (k : Nat)
    (h : greedyPerString s k = .error ()) :
    greedyGo acc (s :: rest) k = .error () := by
  simp only [greedyGo, h]

/-- Greedy non-overlapping seeding of a single in-range string: the loop
seeds at offsets `0, k, 2 * k, ...` strictly below `length - k`, followed by
the re-aligned final seed at offset `length - k`. -/
lemma greedyPerString_spec (s : List Char) (k : Nat) (hk1 : 0 < k)
    (hk : k ≤ s.length) (hn : s.length < 2 ^ 32) :
    greedyPerString s k =
      .ok (((List.range ((s.length - 1) / k)).map fun j => (s.drop (j * k)).take k)
        ++ [(s.drop (s.length - k)).take k]) := by
  unfold greedyPerString
  rw [sizeSub_of_le hk hn, seedLoop_spec s k k (s.length - k) hk1 (by omega) 0]
  simp only [substr, if_pos (by omega : s.length - k ≤ s.length)]
  have harg : s.length - k - 0 + k - 1 = s.length - 1 := by omega
  rw [harg]
  exact congrArg Except.ok
    (congrArg (· ++ [(s.drop (s.length - k)).take k])
      (List.map_congr_left (fun j _ => by rw [Nat.zero_add])))

/-- The retained ranges of the find loop are exactly the non-empty find
results, in pattern order. -/
lemma findLoop_fst {Range : Type} (idx : GCSAIndex Range) (ps : List (List Char)) :
    (findLoop idx ps).1 = (ps.map idx.find).filter (fun r => !idx.isEmptyRange r) := by
  induction ps with
  | nil => simp [findLoop]
  | cons p ps ih =>
    simp only [findLoop, List.map_cons, List.filter_cons]
    by_cases h : idx.isEmptyRange (idx.find p) <;> simp [h, ih]

/-- The running match-path total of the find loop is the sum of the counts
of the retained ranges. -/
lemma findLoop_snd {Range : Type} (idx : GCSAIndex Range) (ps : List (List Char)) :
    (findLoop idx ps).2 = ((findLoop idx ps).1.map idx.count).sum := by
  induction ps with
  | nil => simp [findLoop]
  | cons p ps ih =>
    simp only [findLoop]
    by_cases h : idx.isEmptyRange (idx.find p) <;> simp [h, ih]

/-- Closed form of the locate loop: it adds the number of ranges to
`done_idx` and the total resolved occurrence count to `total_occs`, leaving
`total_no` untouched. -/
lemma locateLoop_spec {Range : Type} (idx : GCSAIndex Range) :
    ∀ (rs : List Range) (st : Counters),
      locateLoop idx st rs =
        ⟨st.done_idx + rs.length, st.total_no,
          st.total_occs + (rs.map fun r => (idx.locate r).length).sum⟩ := by
  intro rs
  induction rs with
  | nil => intro st; simp [locateLoop]
  | cons r rs ih =>
    intro st
    rw [locateLoop, ih]
    simp only [List.length_cons, List.map_cons, List.sum_cons, Counters.mk.injEq]
    refine ⟨by omega, trivial, by omega⟩

/-- Every state in the locate trace carries the starting `total_no`. -/
lemma locateTrace_total {Range : Type} (idx : GCSAIndex Range) :
    ∀ (rs : List Range) (st : Counters), ∀ c ∈ locateTrace idx st rs,
      c.total_no = st.total_no := by
  intro rs
  induction rs with
  | nil => intro st c hc; simp [locateTrace] at hc
  | cons r rs ih =>
    intro st c hc
    simp only [locateTrace, List.mem_cons] at hc
    rcases hc with h | h | h
    · rw [h]
    · rw [h]
    · have h2 := ih _ c h
      simpa using h2

/-- When the starting state has room for all remaining ranges, every state
of the locate trace satisfies `done_idx ≤ total_no`. -/
lemma locateTrace_done_le {Range : Type} (idx : GCSAIndex Range) :
    ∀ (rs : List Range) (st : Counters), st.done_idx + rs.length ≤ st.total_no →
      ∀ c ∈ locateTrace idx st rs, c.done_idx ≤ c.total_no := by
  intro rs
  induction rs with
  | nil => intro st hroom c hc; simp [locateTrace] at hc
  | cons r rs ih =>
    intro st hroom c hc
    simp only [locateTrace, List.mem_cons, List.length_cons] at hroom hc
    rcases hc with h | h | h
    · rw [h]; simp; omega
    · rw [h]; simp; omega
    · exact ih _ (by simp; omega) c h

/-- Along `st` followed by its locate trace, `total_occs` never
decreases. -/
lemma locateTrace_chain {Range : Type} (idx : GCSAIndex Range) :
    ∀ (rs : List Range) (st : Counters),
      List.Chain' (fun a b : Counters => a.total_occs ≤ b.total_occs)
        (st :: locateTrace idx st rs) := by
  intro rs
  induction rs with
  | nil => intro st; simp [locateTrace]
  | cons r rs ih =>
    intro st
    simp only [locateTrace]
    refine List.Chain'.cons (by simp) (List.Chain'.cons (by simp) (ih _))

/-! ### Claim theorems -/

/-- C5: for every sequence of length `n` (within the faithful machine-word
range) and every seed length `k ≤ n`, the overlapping strategy (step = 1)
emits exactly `n - k + 1` seeds: the substrings of length `k` at start
offsets `0, 1, ..., n - k`, in left-to-right order, so consecutive seeds
differ in start offset by exactly 1. -/
theorem overlapping_emits_all_offsets (s : List Char) (k : Nat)
    (hk : k ≤ s.length) (hn : s.length < 2 ^ 32) :
    seeding [] [s] k 1 =
      .ok ((List.range (s.length - k + 1)).map fun i => (s.drop i).take k) ∧
    ((List.range (s.length - k + 1)).map fun i => (s.drop i).take k).length
      = s.length - k + 1 := by
  constructor
  · have h := seeding_single s k 1 one_pos hk hn
    rw [Nat.div_one] at h
    rw [h]
    exact congrArg Except.ok (List.map_congr_left fun j _ => by rw [Nat.mul_one])
  · simp

/-- Witness for C5: on "ACGTACGTAC" with k = 4 the overlapping strategy
emits the seven seeds ACGT, CGTA, GTAC, TACG, ACGT, CGTA, GTAC. -/
theorem overlapping_emits_all_offsets_witness :
    seeding [] [['A','C','G','T','A','C','G','T','A','C']] 4 1 =
      .ok [['A','C','G','T'], ['C','G','T','A'], ['G','T','A','C'], ['T','A','C','G'],
        ['A','C','G','T'], ['C','G','T','A'], ['G','T','A','C']] :=
  ((overlapping_emits_all_offsets ['A','C','G','T','A','C','G','T','A','C'] 4
    (by decide) (by decide)).1).trans (congrArg Except.ok (by decide))

/-- C6: the strict non-overlapping strategy (step = k) on an in-range
sequence with `1 ≤ k ≤ n` emits exactly `n / k` seeds — the substrings at
offsets `0, k, 2k, ...` — each of length exactly `k`; the seeds' offset
intervals are pairwise disjoint, and the final `n mod k` characters lie in
no seed's interval. -/
theorem nonoverlapping_partitions (s : List Char) (k : Nat) (hk1 : 0 < k)
    (hk : k ≤ s.length) (hn : s.length < 2 ^ 32) :
    (seeding [] [s] k k =
      .ok ((List.range (s.length / k)).map fun j => (s.drop (j * k)).take k)) ∧
    (((List.range (s.length / k)).map fun j => (s.drop (j * k)).take k).length
      = s.length / k) ∧
    (∀ j < s.length / k, ((s.drop (j * k)).take k).length = k) ∧
    (∀ j1 < s.length / k, ∀ j2 < s.length / k, j1 ≠ j2 →
      ∀ x, ¬(j1 * k ≤ x ∧ x < j1 * k + k ∧ j2 * k ≤ x ∧ x < j2 * k + k)) ∧
    (∀ x, s.length - s.length % k ≤ x → x < s.length →
      ∀ j < s.length / k, ¬(j * k ≤ x ∧ x < j * k + k)) := by
  have hdn : s.length - k + k = s.length := by omega
  refine ⟨?_, by simp, ?_, ?_, ?_⟩
  · have h := seeding_single s k k hk1 hk hn
    rw [hdn] at h
    exact h
  · intro j hj
    have h3 : (j + 1) * k ≤ s.length :=
      le_trans (Nat.mul_le_mul_right k hj) (Nat.div_mul_le_self s.length k)
    rw [add_mul, one_mul] at h3
    rw [List.length_take, List.length_drop]
    generalize j * k = a at h3 ⊢
    omega
  · rintro j1 hj1 j2 hj2 hne x ⟨hx1, hx2, hx3, hx4⟩
    rcases Nat.lt_or_ge j1 j2 with h | h
    · have hm : (j1 + 1) * k ≤ j2 * k := Nat.mul_le_mul_right k h
      rw [add_mul, one_mul] at hm
      generalize j1 * k = a at hm hx1 hx2 ⊢
      generalize j2 * k = b at hm hx3 hx4 ⊢
      omega
    · have h2 : j2 < j1 := by omega
      have hm : (j2 + 1) * k ≤ j1 * k := Nat.mul_le_mul_right k h2
      rw [add_mul, one_mul] at hm
      generalize j1 * k = a at hm hx1 hx2 ⊢
      generalize j2 * k = b at hm hx3 hx4 ⊢
      omega
  · rintro x hxlo hxhi j hj ⟨ha, hb⟩
    have h3 : (j + 1) * k ≤ s.length / k * k :=
      Nat.mul_le_mul_right k hj
    have h4 : s.length / k * k + s.length % k = s.length := Nat.div_add_mod' s.length k
    rw [add_mul, one_mul] at h3
    generalize j * k = a at h3 ha hb ⊢
    generalize s.length / k * k = b at h3 h4 ⊢
    omega

/-- Witness for C6: on "ACGTACGTAC" with k = 4 the strict non-overlapping
strategy emits the two seeds ACGT, ACGT, dropping the final two
characters. -/
theorem nonoverlapping_partitions_witness :
    seeding [] [['A','C','G','T','A','C','G','T','A','C']] 4 4 =
      .ok [['A','C','G','T'], ['A','C','G','T']] :=
  ((nonoverlapping_partitions ['A','C','G','T','A','C','G','T','A','C'] 4
    (by decide) (by decide) (by decide)).1).trans (congrArg Except.ok (by decide))

/-- C7: the greedy non-overlapping strategy on an in-range sequence with
`1 ≤ k ≤ n` emits exactly `⌈n / k⌉ = (n + k - 1) / k` seeds, each of length
exactly `k`: the loop seeds at offsets `0, k, 2k, ...` strictly below
`n - k`, plus the final seed re-aligned to start at `n - k` (so it ends
exactly at position `n`); when `n mod k ≠ 0` the final seed overlaps the
second-to-last by exactly `k - n mod k` characters.  Any previous contents
of the seed vector are discarded. -/
theorem greedy_covers_tail (s : List Char) (k : Nat) (hk1 : 0 < k)
    (hk : k ≤ s.length) (hn : s.length < 2 ^ 32) (prev : List (List Char)) :
    (seedingGreedyNonOverlapping prev [s] k =
      .ok (((List.range ((s.length - 1) / k)).map fun j => (s.drop (j * k)).take k)
        ++ [(s.drop (s.length - k)).take k])) ∧
    ((((List.range ((s.length - 1) / k)).map fun j => (s.drop (j * k)).take k)
        ++ [(s.drop (s.length - k)).take k]).length = (s.length + k - 1) / k) ∧
    (∀ j < (s.length - 1) / k, ((s.drop (j * k)).take k).length = k) ∧
    (((s.drop (s.length - k)).take k).length = k) ∧
    (s.length % k ≠ 0 →
      1 ≤ (s.length - 1) / k ∧
      s.length - k < ((s.length - 1) / k - 1) * k + k ∧
      ((s.length - 1) / k - 1) * k + k - (s.length - k) = k - s.length % k) := by
  refine ⟨?_, ?_, ?_, ?_, ?_⟩
  · simp only [seedingGreedyNonOverlapping, greedyGo,
      greedyPerString_spec s k hk1 hk hn]
    simp [greedyGo]
  · simp only [List.length_append, List.length_map, List.length_range,
      List.length_cons, List.length_nil]
    have he : s.length + k - 1 = (s.length - 1) + k := by omega
    rw [he, Nat.add_div_right _ hk1]
  · intro j hj
    have h3 : (j + 1) * k ≤ (s.length - 1) / k * k :=
      Nat.mul_le_mul_right k hj
    have h4 : (s.length - 1) / k * k ≤ s.length - 1 := Nat.div_mul_le_self _ _
    rw [add_mul, one_mul] at h3
    rw [List.length_take, List.length_drop]
    generalize j * k = a at h3 ⊢
    generalize (s.length - 1) / k * k = b at h3 h4 ⊢
    omega
  · rw [List.length_take, List.length_drop]
    omega
  · intro hr
    have hq := Nat.div_add_mod s.length k
    have hrlt : s.length % k < k := Nat.mod_lt _ hk1
    have hq1 : 1 ≤ s.length / k := (Nat.one_le_div_iff hk1).mpr hk
    have hm : (s.length - 1) / k = s.length / k := by
      refine Nat.div_eq_of_lt_le ?_ ?_
      · rw [mul_comm]
        generalize k * (s.length / k) = a at hq ⊢
        omega
      · rw [add_mul, one_mul, mul_comm]
        generalize k * (s.length / k) = a at hq ⊢
        omega
    rw [hm]
    have hsk : (s.length / k - 1) * k = k * (s.length / k) - k := by
      rw [Nat.sub_mul, one_mul, mul_comm]
    have hkb : k ≤ k * (s.length / k) := Nat.le_mul_of_pos_right k hq1
    rw [hsk]
    refine ⟨hq1, ?_, ?_⟩ <;>
      (generalize k * (s.length / k) = a at hq hkb ⊢; omega)

/-- Witness for C7: on "ACGTACGTAC" (length 10) with k = 4 the greedy
non-overlapping strategy discards the previous vector contents and emits
the three seeds ACGT, ACGT, GTAC, the last starting at offset 6 = 10 - 4
and overlapping the second-to-last by 2 = 4 - 10 % 4 characters. -/
theorem greedy_covers_tail_witness :
    seedingGreedyNonOverlapping [['X']] [['A','C','G','T','A','C','G','T','A','C']] 4 =
      .ok [['A','C','G','T'], ['A','C','G','T'], ['G','T','A','C']] ∧
    ((10 - 1) / 4 - 1) * 4 + 4 - (10 - 4) = 4 - 10 % 4 :=
  ⟨((greedy_covers_tail ['A','C','G','T','A','C','G','T','A','C'] 4
      (by decide) (by decide) (by decide) [['X']]).1).trans
    (congrArg Except.ok (by decide)),
   (greedy_covers_tail ['A','C','G','T','A','C','G','T','A','C'] 4
      (by decide) (by decide) (by decide) [['X']]).2.2.2.2 (by decide) |>.2.2⟩

/-- C2 (code bug): on the sequence "AC" (length 2, shorter than k = 4) the
unsigned loop-bound computation of every strategy underflows and the loop
reaches a substring access past the end of the string, so the code throws
std::out_of_range instead of contributing zero seeds. -/
theorem short_sequence_underflow_crash :
    seeding [] [['A', 'C']] 4 1 = .error () ∧
    seeding [] [['A', 'C']] 4 4 = .error () ∧
    seedingGreedyOverlapping [] [['A', 'C']] 4 = .error () ∧
    seedingNonOverlapping [] [['A', 'C']] 4 = .error () ∧
    seedingGreedyNonOverlapping [] [['A', 'C']] 4 = .error () := by
  have hb1 : (['A', 'C'] : List Char).length + 1 <
      (sizeSub (['A', 'C'] : List Char).length 4 + 1) % U64 := by
    norm_num [sizeSub, U64]
  have hb4 : (['A', 'C'] : List Char).length + 4 <
      (sizeSub (['A', 'C'] : List Char).length 4 + 1) % U64 := by
    norm_num [sizeSub, U64]
  have hg4 : (['A', 'C'] : List Char).length + 4 <
      sizeSub (['A', 'C'] : List Char).length 4 := by
    norm_num [sizeSub, U64]
  have h1 : seeding [] [['A', 'C']] 4 1 = .error () :=
    seeding_error_head _ _ _ 4 1
      (seedLoop_error _ 4 1 _ one_pos hb1 0 (by norm_num))
  have h2 : seeding [] [['A', 'C']] 4 4 = .error () :=
    seeding_error_head _ _ _ 4 4
      (seedLoop_error _ 4 4 _ (by norm_num) hb4 0 (by norm_num))
  have h5 : seedingGreedyNonOverlapping [] [['A', 'C']] 4 = .error () :=
    greedyGo_error_head _ _ _ 4
      (greedyPerString_error _ 4
        (seedLoop_error _ 4 4 _ (by norm_num) hg4 0 (by norm_num)))
  exact ⟨h1, h2, h1, h2, h5⟩

/-- C3 (code bug): the percent computation of signal_handler divides
`done_idx * 100` by `total_no` with no guard, so triggering the report
while `total_no = 0` performs a division by zero (undefined behavior); the
all-zero counter state at which this happens is the first observable state
of every run. -/
theorem percent_unguarded_division :
    signalHandlerPercent ⟨0, 0, 0⟩ = .error () ∧
    ∀ {Range : Type} (idx : GCSAIndex Range) (seqs : List (List Char)) (k d : Nat),
      (pipelineTrace idx seqs k d).head? = some ⟨0, 0, 0⟩ := by
  refine ⟨rfl, ?_⟩
  intro Range idx seqs k d
  cases h : seeding [] seqs k d <;> simp [pipelineTrace, h]

/-- C1 (code bug): `locate_seeds` never writes the output file — the
output stream is commented out and the output-name parameter unused — so
on a run where the stub index resolves one occurrence for the single
generated seed, the written records are empty while the spec-mandated
in-order serialization contains that occurrence. -/
theorem output_never_written :
    outputRecords stubIndex [['A', 'C']] 2 1 = [] ∧
    specOutputRecords stubIndex [['A', 'C']] 2 1 = [(1, 0)] := by
  refine ⟨rfl, ?_⟩
  have hseed : seeding [] [['A', 'C']] 2 1 = .ok [['A', 'C']] := by
    rw [seeding_single ['A', 'C'] 2 1 one_pos (by decide) (by decide)]
    exact congrArg Except.ok (by decide)
  simp only [specOutputRecords, hseed]
  decide

/-- C4 (counterexample): with the distance option left at its parsed
default 0 and seed length 4, `get_option_values` resolves the step to
4 = k, and on the sequence "ACGTA" the generated seeds differ from the
overlapping strategy's (step = 1): the default is not overlapping. -/
theorem default_distance_counterexample :
    resolveDistance 0 4 = 4 ∧
    seeding [] [['A','C','G','T','A']] 4 (resolveDistance 0 4) =
      .ok [['A','C','G','T']] ∧
    seeding [] [['A','C','G','T','A']] 4 1 =
      .ok [['A','C','G','T'], ['C','G','T','A']] := by
  refine ⟨rfl, ?_, ?_⟩
  · show seeding [] [['A','C','G','T','A']] 4 4 = .ok [['A','C','G','T']]
    rw [seeding_single ['A','C','G','T','A'] 4 4 (by norm_num) (by decide) (by decide)]
    exact congrArg Except.ok (by decide)
  · rw [seeding_single ['A','C','G','T','A'] 4 1 one_pos (by decide) (by decide)]
    exact congrArg Except.ok (by decide)

/-- C4 (amended): when the distance option is unspecified on the command
line its parsed default is 0, which `get_option_values` replaces by the
seed length, so seed generation runs the generic seeding with step = k —
the behavior of the strict non-overlapping strategy (for any previous
seed-vector contents), not the overlapping one. -/
theorem default_distance_is_nonoverlapping (seqs : List (List Char)) (k : Nat)
    (prev : List (List Char)) :
    seeding [] seqs k (resolveDistance 0 k) = seedingNonOverlapping prev seqs k := rfl

/-- C8: the find loop consults the index for every seed in seed order and
never aborts on a failed match: exactly the non-empty ranges are retained,
in order; the running match-path total sums the counts of the retained
ranges only; no empty range is in the locate phase's input; and the locate
loop increments `done_idx` once per retained range and adds exactly the
retained ranges' occurrence counts to `total_occs` — a seed with an empty
range contributes zero occurrences and no `done_idx` increment. -/
theorem empty_ranges_dropped {Range : Type} (idx : GCSAIndex Range)
    (patterns : List (List Char)) (t : Nat) :
    (findLoop idx patterns).1 =
      (patterns.map idx.find).filter (fun r => !idx.isEmptyRange r) ∧
    (findLoop idx patterns).2 = ((findLoop idx patterns).1.map idx.count).sum ∧
    (∀ r ∈ (findLoop idx patterns).1, idx.isEmptyRange r = false) ∧
    (locateLoop idx ⟨0, t, 0⟩ (findLoop idx patterns).1).done_idx =
      (findLoop idx patterns).1.length ∧
    (locateLoop idx ⟨0, t, 0⟩ (findLoop idx patterns).1).total_occs =
      ((findLoop idx patterns).1.map fun r => (idx.locate r).length).sum := by
  refine ⟨findLoop_fst idx patterns, findLoop_snd idx patterns, ?_, ?_, ?_⟩
  · intro r hr
    rw [findLoop_fst] at hr
    have h := List.of_mem_filter hr
    simpa using h
  · rw [locateLoop_spec]; simp
  · rw [locateLoop_spec]; simp

/-- C9: in every run, every observable counter state satisfies
`done_idx ≤ total_no`; `total_occs` is non-decreasing across consecutive
observations; and `total_no`, set once after seed generation, equals the
generated seed count in every state after the initial one. -/
theorem progress_counter_invariants {Range : Type} (idx : GCSAIndex Range)
    (seqs : List (List Char)) (k d : Nat) :
    (∀ c ∈ pipelineTrace idx seqs k d, c.done_idx ≤ c.total_no) ∧
    List.Chain' (fun a b : Counters => a.total_occs ≤ b.total_occs)
      (pipelineTrace idx seqs k d) ∧
    (∀ c ∈ (pipelineTrace idx seqs k d).tail,
      c.total_no = generatedSeedCount seqs k d) := by
  cases h : seeding [] seqs k d with
  | error e =>
    refine ⟨?_, ?_, ?_⟩ <;> simp [pipelineTrace, generatedSeedCount, h]
  | ok patterns =>
    have hlen : (findLoop idx patterns).1.length ≤ patterns.length := by
      rw [findLoop_fst]
      exact le_trans (List.length_filter_le _ _) (by simp)
    simp only [pipelineTrace, generatedSeedCount, h]
    refine ⟨?_, ?_, ?_⟩
    · intro c hc
      simp only [List.mem_cons] at hc
      rcases hc with h1 | h1 | h1
      · rw [h1]
      · rw [h1]; simp
      · exact locateTrace_done_le idx _ ⟨0, patterns.length, 0⟩ (by simpa using hlen) c h1
    · exact List.chain'_cons.mpr ⟨by simp, locateTrace_chain idx _ _⟩
    · intro c hc
      simp only [List.tail_cons, List.mem_cons] at hc
      rcases hc with h1 | h1
      · rw [h1]
      · have h2 := locateTrace_total idx _ ⟨0, patterns.length, 0⟩ c h1
        simpa using h2

/-- C10: each tag-dispatched overload of `seeding` discards the previous
contents of the seed vector and equals the generic step-parameterized
seeding started from the empty vector — with step 1 for the overlapping
tag and step k for the strict non-overlapping tag — while the generic
seeding itself appends to whatever vector it is given, without
clearing. -/
theorem tag_dispatch_refinement (prev string_set : List (List Char)) (k step : Nat)
    (seeds : List (List Char)) :
    seedingGreedyOverlapping prev string_set k = seeding [] string_set k 1 ∧
    seedingNonOverlapping prev string_set k = seeding [] string_set k k ∧
    seeding seeds string_set k step =
      (seeding [] string_set k step).map (fun new => seeds ++ new) :=
  ⟨rfl, rfl, seeding_append seeds string_set k step⟩

end GcsaLocate
